import Mathlib

/-!
Verification of the xupu font-deobfuscation pipeline.

The development shallowly embeds the two core scripts:
* `decrypt_content.py` — mapping-file parsing and character-wise text
  substitution (`parseMapLine`, `parseMap`, `substitute`);
* `solve_font.py` — glyph rasterization (`render_glyph`), the image
  distance (`mse`), the best-match scan (`matchLoop` / `bestMatch`),
  the solving loop (`solve`), the reference-corpus construction
  (`buildRefCorpus`, `selectRefFace`) and the textual serialization
  of the resulting table (`serializeEntry`, `serializeMapping`).

Python dictionaries are modelled as association lists with the
update-in-place insertion semantics of CPython (`dictInsert`), floats
are modelled as rationals, and text as `List Char` (Python strings
iterate by Unicode scalar value).
-/

namespace Xupu

attribute [local semireducible] Rat.add Rat.mul Rat.inv Rat.sub

/-! ### Python string / dict primitives -/

/-- Python `str.strip()` whitespace set (the ASCII part, which is all the
scripts ever feed it). -/
def isPySpace (c : Char) : Bool :=
  c == ' ' || c == '\t' || c == '\n' || c == '\r' || c == Char.ofNat 11 || c == Char.ofNat 12

/-- Python `str.strip()` on a scalar sequence. -/
def pyStrip (l : List Char) : List Char :=
  ((l.dropWhile isPySpace).reverse.dropWhile isPySpace).reverse

/-- The scalar sequence after the first occurrence of `sep` (nonempty in all
uses), or `none` when `sep` does not occur: the search part of Python
`sep in s` and `s.split(sep)[1]`. -/
def afterSub (sep : List Char) : List Char → Option (List Char)
  | [] => none
  | c :: rest =>
    if List.isPrefixOf sep (c :: rest) then some ((c :: rest).drop sep.length)
    else afterSub sep rest

/-- Python `sep in s` (substring containment). -/
def containsSub (sep l : List Char) : Bool :=
  (afterSub sep l).isSome

/-- The scalar sequence before the first occurrence of `sep` (all of it when
`sep` does not occur): together with `afterSub` this reconstructs the
fields of Python `s.split(sep)` that the scripts use. -/
def beforeSub (sep : List Char) : List Char → List Char
  | [] => []
  | c :: rest =>
    if List.isPrefixOf sep (c :: rest) then []
    else c :: beforeSub sep rest

/-- CPython `dict` insertion on an association list: an existing key keeps
its position and gets the new value, a fresh key is appended. -/
def dictInsert {κ α : Type} [DecidableEq κ] (k : κ) (v : α) : List (κ × α) → List (κ × α)
  | [] => [(k, v)]
  | p :: rest => if p.1 = k then (k, v) :: rest else p :: dictInsert k v rest

/-- CPython `dict` lookup (`k in d` / `d[k]`) on the association list. -/
def dictLookup {κ α : Type} [DecidableEq κ] (k : κ) (m : List (κ × α)) : Option α :=
  (m.find? (fun p => decide (p.1 = k))).map (fun p => p.2)

/-! ### Python `int(s, 16)` -/

/-- Whether `c` is a hexadecimal digit in either case, as `int(s, 16)`
accepts. -/
def isHexDigitChar (c : Char) : Bool :=
  ('0' ≤ c && c ≤ '9') || ('a' ≤ c && c ≤ 'f') || ('A' ≤ c && c ≤ 'F')

/-- Numeric value of a hexadecimal digit. -/
def hexDigitVal (c : Char) : ℕ :=
  if '0' ≤ c ∧ c ≤ '9' then c.toNat - '0'.toNat
  else if 'a' ≤ c ∧ c ≤ 'f' then c.toNat - 'a'.toNat + 10
  else if 'A' ≤ c ∧ c ≤ 'F' then c.toNat - 'A'.toNat + 10
  else 0

/-- CPython digit-group validity: nonempty, underscores only singly and
only between digits. -/
def validUnderscoredHex (l : List Char) : Bool :=
  !l.isEmpty && l.head? != some '_' && l.getLast? != some '_'
    && l.all (fun c => isHexDigitChar c || c == '_')
    && (l.zip l.tail).all (fun p => !(p.1 == '_' && p.2 == '_'))

/-- Value of a (pure) hexadecimal digit string. -/
def hexListVal (l : List Char) : ℕ :=
  l.foldl (fun a c => 16 * a + hexDigitVal c) 0

/-- Python `int(s, 16)` restricted to non-negative inputs (both call sites
in the scripts feed strings that begin with `0x` after stripping, so a
sign never occurs): surrounding whitespace is stripped, an optional
`0x`/`0X` prefix (optionally followed by one underscore) is dropped, and
the remaining digit group must be valid; `none` models `ValueError`. -/
def pyIntHex16 (s : List Char) : Option ℕ :=
  let t := pyStrip s
  let hasPref : Bool := List.isPrefixOf ['0', 'x'] t || List.isPrefixOf ['0', 'X'] t
  let body0 := if hasPref then t.drop 2 else t
  let body := if hasPref && body0.head? == some '_' then body0.drop 1 else body0
  if validUnderscoredHex body then some (hexListVal (body.filter (fun c => c != '_')))
  else none

/-! ### `decrypt_content.py`: mapping-file parsing and substitution -/

/-- One iteration of the mapping-load loop of `decrypt_content`
(`decrypt_content.py` lines 9-20): skip debug lines containing
`Code 0x`, require a colon and a stripped `0x` start, split the stripped
line at colons, parse the first field as hex and strip the second;
`none` means the line contributes nothing. -/
def parseMapLine (line : List Char) : Option (ℕ × List Char) :=
  if containsSub ("Code 0x".data) line then none
  else if line.contains ':' && List.isPrefixOf ("0x".data) (pyStrip line) then
    match (pyStrip line).splitOn ':' with
    | p0 :: p1 :: _ =>
      match pyIntHex16 (pyStrip p0) with
      | some code => some (code, pyStrip p1)
      | none => none
    | _ => none
  else none

/-- The whole mapping-load loop of `decrypt_content`: fold the per-line
parser over the file with Python dict semantics. -/
def parseMap (lines : List (List Char)) : List (ℕ × List Char) :=
  lines.foldl
    (fun m l =>
      match parseMapLine l with
      | some kv => dictInsert kv.1 kv.2 m
      | none => m)
    []

/-- The substitution loop of `decrypt_content` (`decrypt_content.py`
lines 63-72): for each scalar of the content, append its mapped string
when its code is a key of the mapping and the scalar itself otherwise,
then join. -/
def substitute (mapping : List (ℕ × List Char)) (content : List Char) : List Char :=
  (content.map (fun ch =>
    match dictLookup ch.toNat mapping with
    | some v => v
    | none => [ch])).flatten

/-! ### `solve_font.py`: data model -/

/-- The fields of a FreeType glyph slot's bitmap that `render_glyph`
reads: `bitmap.width`, `bitmap.rows`, `bitmap.buffer`. -/
structure GlyphSlot where
  width : ℕ
  rows : ℕ
  buffer : List ℕ
deriving DecidableEq

/-- The two operations of a `freetype.Face` that the scripts use:
`get_char_index` and `load_glyph` followed by reading `glyph.bitmap`; a
font-driver failure during loading is an `Except.error`. -/
structure Face where
  charIndex : ℕ → ℕ
  loadGlyph : ℕ → Except String GlyphSlot

/-- A rendered coverage bitmap (`numpy` 2-D array of `uint8`): height,
width, and the pixel at a row/column position. -/
structure Bitmap where
  h : ℕ
  w : ℕ
  px : ℕ → ℕ → ℕ

/-- The argument of `render_glyph` is either a single character or an
integer codepoint (`solve_font.py` lines 21-24). -/
def ccToCode : Char ⊕ ℕ → ℕ
  | Sum.inl c => c.toNat
  | Sum.inr n => n

/-- `render_glyph` (`solve_font.py` lines 18-45): `none` when the font
reports glyph index 0, when loading raises, when the raster has zero
rows or zero width, or when the buffer does not hold `rows*width`
entries (then `numpy.reshape` raises and the `except` catches it);
otherwise the buffer reshaped to a `rows × width` grid. -/
def render_glyph (face : Face) (cc : Char ⊕ ℕ) : Option Bitmap :=
  if face.charIndex (ccToCode cc) = 0 then none
  else
    match face.loadGlyph (face.charIndex (ccToCode cc)) with
    | Except.error _ => none
    | Except.ok g =>
      if g.rows = 0 ∨ g.width = 0 then none
      else if g.buffer.length ≠ g.rows * g.width then none
      else some ⟨g.rows, g.width, fun r c => g.buffer.getD (r * g.width + c) 0⟩

/-! ### `solve_font.py`: the image distance `mse` -/

/-- Top-left padding into the common canvas (`padA[:hA, :wA] = imageA`
over a zero canvas, `solve_font.py` lines 60-64): the pixel of `img` at
`(r, c)` when in range, `0` elsewhere. -/
def padTL (img : Bitmap) (r c : ℕ) : ℤ :=
  if r < img.h ∧ c < img.w then (img.px r c : ℤ) else 0

/-- Sum of squared per-pixel differences over the common canvas
(`solve_font.py` line 66). -/
def sqErrSum (A B : Bitmap) : ℚ :=
  ((List.range (Nat.max A.h B.h)).map (fun r =>
    ((List.range (Nat.max A.w B.w)).map (fun c =>
      let d : ℚ := ((padTL A r c - padTL B r c : ℤ) : ℚ)
      d * d)).sum)).sum

/-- `mse` (`solve_font.py` lines 47-69): the squared-difference sum over
the `max`-sized canvas divided by the canvas area, with floats modelled
as rationals. -/
def mse (A B : Bitmap) : ℚ :=
  sqErrSum A B / ((Nat.max A.h B.h * Nat.max A.w B.w : ℕ) : ℚ)

/-! ### `solve_font.py`: best-match scan and solving loop -/

/-- The inner loop of `main` over the reference bitmaps
(`solve_font.py` lines 156-160), with `min_error` as `Option ℚ` where
`none` is the initial `float("inf")`: a candidate replaces the current
best exactly when its error is strictly smaller. -/
def matchLoop (t : Bitmap) : List (Char × Bitmap) → Char → Option ℚ → Char × Option ℚ
  | [], c, m => (c, m)
  | p :: rest, c, m =>
    let e := mse t p.2
    match m with
    | none => matchLoop t rest p.1 (some e)
    | some mv => if e < mv then matchLoop t rest p.1 (some e) else matchLoop t rest c (some mv)

/-- The best-match scan starting from `best_char = "?"`,
`min_error = float("inf")` (`solve_font.py` lines 153-160). -/
def bestMatch (t : Bitmap) (corpus : List (Char × Bitmap)) : Char × Option ℚ :=
  matchLoop t corpus '?' none

/-- The acceptance cutoff of `main` (`solve_font.py` line 165). -/
def THRESHOLD : ℚ := 100000000

/-- One iteration of the solving loop (`solve_font.py` lines 146-168):
skip codes whose target bitmap is absent, otherwise record the best
match iff its error is strictly below the cutoff (`float("inf")` is
never below it, so an empty corpus records nothing). -/
def solveStep (thr : ℚ) (render : ℕ → Option Bitmap) (corpus : List (Char × Bitmap))
    (m : List (ℕ × Char)) (code : ℕ) : List (ℕ × Char) :=
  match render code with
  | none => m
  | some t =>
    match (bestMatch t corpus).2 with
    | some e => if e < thr then dictInsert code (bestMatch t corpus).1 m else m
    | none => m

/-- The whole solving loop over the candidate codes. -/
def solve (thr : ℚ) (render : ℕ → Option Bitmap) (corpus : List (Char × Bitmap))
    (codes : List ℕ) : List (ℕ × Char) :=
  codes.foldl (solveStep thr render corpus) []

/-! ### `solve_font.py`: reference corpus and face selection -/

/-- `COMMON_CHARS` (`solve_font.py` lines 13-15): the characters of the
basic CJK block `0x4E00 ≤ code < 0x9FA6`. -/
def COMMON_CHARS : List Char :=
  (List.range' 0x4E00 (0x9FA6 - 0x4E00)).map Char.ofNat

/-- The pre-rendering loop over the reference characters
(`solve_font.py` lines 128-137): failed rasterizations are dropped. -/
def buildRefCorpus (face : Face) (chars : List Char) : List (Char × Bitmap) :=
  chars.foldl
    (fun m ch =>
      match render_glyph face (Sum.inl ch) with
      | some bmp => dictInsert ch bmp m
      | none => m)
    []

/-- Reference-face selection (`solve_font.py` lines 92-108): the first
face of the reference font whose charmap has a glyph for `中` (0x4E2D),
falling back to the container's face 0. -/
def selectRefFace (faces : List Face) : Option Face :=
  match faces.find? (fun f => f.charIndex 0x4E2D != 0) with
  | some f => some f
  | none => faces.head?

/-- The PUA-code extraction from one line of `font_map.txt`
(`solve_font.py` lines 118-122): lines containing `Code: 0x` contribute
`int(line.split("Code: ")[1].split(",")[0], 16)`. A hex-parse failure
is returned as `none` here; in the script it would raise out of `main`
(the claims never exercise that input). -/
def parsePuaLine (line : List Char) : Option ℕ :=
  match afterSub ("Code: ".data) line with
  | none => none
  | some rest =>
    if containsSub ("Code: 0x".data) line then
      pyIntHex16 (beforeSub [','] (beforeSub ("Code: ".data) rest))
    else none

/-- All PUA codes read from the `font_map.txt` lines. -/
def parsePuaCodes (lines : List (List Char)) : List ℕ :=
  lines.filterMap parsePuaLine

/-- The reference corpus `main` builds: `COMMON_CHARS` pre-rendered from
the selected face of the external reference font (`solve_font.py`
lines 92-139); the obfuscated font plays no part in it. -/
def mainRefCorpus (refFaces : List Face) : List (Char × Bitmap) :=
  match selectRefFace refFaces with
  | some faceRef => buildRefCorpus faceRef COMMON_CHARS
  | none => []

/-- The pipeline of `main` after the two fonts are opened: select the
reference face, pre-render the reference corpus from `COMMON_CHARS`,
then run the solving loop over the candidate codes against glyphs of
the obfuscated face. -/
def mainSolve (faceObs : Face) (refFaces : List Face) (puaCodes : List ℕ) : List (ℕ × Char) :=
  solve THRESHOLD (fun code => render_glyph faceObs (Sum.inr code))
    (mainRefCorpus refFaces) puaCodes

/-! ### `solve_font.py`: serialization of the table -/

/-- One lowercase hexadecimal digit. -/
def toHexDigit (d : ℕ) : Char :=
  if d < 10 then Char.ofNat ('0'.toNat + d) else Char.ofNat ('a'.toNat + (d - 10))

/-- The digit part of Python `hex(n)`, structured on an explicit fuel so
that it evaluates by reduction; `hexRep` passes fuel `n + 1`, which is
always enough since the value shrinks by a factor of 16 each step. -/
def hexRepGo : ℕ → ℕ → List Char
  | 0, _ => []
  | fuel + 1, n =>
    if n < 16 then [toHexDigit n]
    else hexRepGo fuel (n / 16) ++ [toHexDigit (n % 16)]

/-- The digit part of Python `hex(n)`: lowercase, no padding. -/
def hexRep (n : ℕ) : List Char :=
  hexRepGo (n + 1) n

/-- Python `hex(n)` for `n : ℕ` (`mapping[hex(code)] = best_char`,
`solve_font.py` line 166). -/
def pyHex (n : ℕ) : List Char :=
  '0' :: 'x' :: hexRep n

/-- One output line of the final loop (`solve_font.py` lines 172-173):
`f"{code}:{char}"` where the key is the `hex(code)` string. -/
def serializeEntry (code : ℕ) (c : Char) : List Char :=
  pyHex code ++ ':' :: [c]

/-- The serialized Mapping Table: one line per entry, in table order. -/
def serializeMapping (m : List (ℕ × Char)) : List (List Char) :=
  m.map (fun p => serializeEntry p.1 p.2)

/-! ### Definitions taken from the specification, for comparison -/

/-- Whether `c` is a lowercase hexadecimal digit, as in the spec's entry
pattern `^0x[0-9a-f]+:`. -/
def isLowerHexDigit (c : Char) : Bool :=
  ('0' ≤ c && c ≤ '9') || ('a' ≤ c && c ≤ 'f')

/-- Modelled from the spec (§6, Mapping Table file): one entry line is
`0x` + lowercase hex codepoint zero-padded to at least 4 digits + `:` +
exactly one recovered character, with nothing after it. -/
def specEntryShape (l : List Char) : Bool :=
  match l with
  | '0' :: 'x' :: rest =>
    decide (4 ≤ (rest.takeWhile isLowerHexDigit).length) &&
      (match rest.dropWhile isLowerHexDigit with
       | [':', _] => true
       | _ => false)
  | _ => false

/-- Modelled from the spec (§4.4, distance metric): placement of `img`
into an `h × w` canvas centered, each top-left offset being half the
padding deficit in that axis with integer floor. -/
def padCentered (img : Bitmap) (h w r c : ℕ) : ℤ :=
  if (h - img.h) / 2 ≤ r ∧ r < (h - img.h) / 2 + img.h ∧
      (w - img.w) / 2 ≤ c ∧ c < (w - img.w) / 2 + img.w then
    (img.px (r - (h - img.h) / 2) (c - (w - img.w) / 2) : ℤ)
  else 0

/-- Modelled from the spec (§4.4): mean squared error with both bitmaps
placed centered into the `max`-sized canvas and the squared differences
divided by the canvas area. -/
def mseCenteredSpec (A B : Bitmap) : ℚ :=
  ((List.range (Nat.max A.h B.h)).map (fun r =>
    ((List.range (Nat.max A.w B.w)).map (fun c =>
      let d : ℚ := ((padCentered A (Nat.max A.h B.h) (Nat.max A.w B.w) r c
          - padCentered B (Nat.max A.h B.h) (Nat.max A.w B.w) r c : ℤ) : ℚ)
      d * d)).sum)).sum / ((Nat.max A.h B.h * Nat.max A.w B.w : ℕ) : ℚ)

/-- Modelled from the spec (§4.3, selection rule): the obfuscated font's
own discoverable CJK glyph count, over the same basic CJK block the
reference set uses. -/
def cjkGlyphCount (face : Face) : ℕ :=
  ((List.range' 0x4E00 (0x9FA6 - 0x4E00)).filter (fun code => face.charIndex code != 0)).length

/-! ### Helper lemmas -/

theorem dictLookup_mem {κ α : Type} [DecidableEq κ] {k : κ} {m : List (κ × α)} {v : α}
    (h : dictLookup k m = some v) : (k, v) ∈ m := by
  induction m with
  | nil => simp [dictLookup] at h
  | cons p rest ih =>
    unfold dictLookup at h ih
    by_cases hp : p.1 = k
    · rw [List.find?_cons_of_pos _ (by simpa using hp)] at h
      simp only [Option.map_some', Option.some.injEq] at h
      rcases p with ⟨a, b⟩
      have : (a, b) = (k, v) := by
        simp only [Prod.mk.injEq]
        exact ⟨hp, h⟩
      rw [← this]
      exact List.mem_cons_self _ _
    · rw [List.find?_cons_of_neg _ (by simpa using hp)] at h
      exact List.mem_cons_of_mem _ (ih h)

theorem mem_dictInsert {κ α : Type} [DecidableEq κ] {x : κ × α} {k : κ} {v : α}
    {m : List (κ × α)} (h : x ∈ dictInsert k v m) : x = (k, v) ∨ x ∈ m := by
  induction m with
  | nil =>
    unfold dictInsert at h
    simp at h
    exact Or.inl h
  | cons p rest ih =>
    unfold dictInsert at h
    by_cases hpk : p.1 = k
    · simp only [if_pos hpk, List.mem_cons] at h
      rcases h with h | h
      · exact Or.inl h
      · exact Or.inr (List.mem_cons_of_mem _ h)
    · simp only [if_neg hpk, List.mem_cons] at h
      rcases h with h | h
      · exact Or.inr (List.mem_cons.mpr (Or.inl h))
      · rcases ih h with h | h
        · exact Or.inl h
        · exact Or.inr (List.mem_cons_of_mem _ h)

theorem dictLookup_dictInsert {κ α : Type} [DecidableEq κ] (k k' : κ) (v : α)
    (m : List (κ × α)) :
    dictLookup k' (dictInsert k v m) = if k = k' then some v else dictLookup k' m := by
  induction m with
  | nil =>
    unfold dictInsert dictLookup
    by_cases hk : k = k'
    · rw [List.find?_cons_of_pos _ (by simpa using hk)]
      simp [hk]
    · rw [List.find?_cons_of_neg _ (by simpa using hk)]
      simp [hk]
  | cons p rest ih =>
    unfold dictInsert
    by_cases hpk : p.1 = k
    · rw [if_pos hpk]
      by_cases hk : k = k'
      · rw [if_pos hk]
        unfold dictLookup
        rw [List.find?_cons_of_pos _ (by simpa using hk)]
        rfl
      · rw [if_neg hk]
        have hpk' : ¬p.1 = k' := fun hcon => hk ((hpk.symm.trans hcon))
        unfold dictLookup
        rw [List.find?_cons_of_neg _ (by simpa using hk),
          List.find?_cons_of_neg _ (by simpa using hpk')]
    · rw [if_neg hpk]
      by_cases hpk' : p.1 = k'
      · have hk : ¬k = k' := fun hcon => hpk (hcon ▸ hpk')
        rw [if_neg hk]
        unfold dictLookup
        rw [List.find?_cons_of_pos _ (by simpa using hpk'),
          List.find?_cons_of_pos _ (by simpa using hpk')]
      · unfold dictLookup
        rw [List.find?_cons_of_neg _ (by simpa using hpk'),
          List.find?_cons_of_neg _ (by simpa using hpk')]
        exact ih

theorem solveStep_render_none {thr : ℚ} {render : ℕ → Option Bitmap}
    {corpus : List (Char × Bitmap)} {m : List (ℕ × Char)} {code : ℕ}
    (hr : render code = none) : solveStep thr render corpus m code = m := by
  unfold solveStep
  rw [hr]

theorem solveStep_match_none {thr : ℚ} {render : ℕ → Option Bitmap}
    {corpus : List (Char × Bitmap)} {m : List (ℕ × Char)} {code : ℕ} {t : Bitmap}
    (hr : render code = some t) (hbm : (bestMatch t corpus).2 = none) :
    solveStep thr render corpus m code = m := by
  unfold solveStep
  rw [hr]
  show (match (bestMatch t corpus).2 with
    | some e => if e < thr then dictInsert code (bestMatch t corpus).1 m else m
    | none => m) = m
  rw [hbm]

theorem solveStep_match_some {thr : ℚ} {render : ℕ → Option Bitmap}
    {corpus : List (Char × Bitmap)} {m : List (ℕ × Char)} {code : ℕ} {t : Bitmap} {e : ℚ}
    (hr : render code = some t) (hbm : (bestMatch t corpus).2 = some e) :
    solveStep thr render corpus m code =
      if e < thr then dictInsert code (bestMatch t corpus).1 m else m := by
  unfold solveStep
  rw [hr]
  show (match (bestMatch t corpus).2 with
    | some e => if e < thr then dictInsert code (bestMatch t corpus).1 m else m
    | none => m) =
    if e < thr then dictInsert code (bestMatch t corpus).1 m else m
  rw [hbm]

theorem foldl_invariant {α β : Type} (P : β → Prop) (step : β → α → β)
    (l : List α) (init : β) (h0 : P init) (hstep : ∀ m a, P m → P (step m a)) :
    P (l.foldl step init) := by
  induction l generalizing init with
  | nil => exact h0
  | cons a l ih => exact ih _ (hstep _ _ h0)

theorem substitute_eq_map (T : List (ℕ × List Char)) (s : List Char)
    (hT : ∀ p ∈ T, p.2.length = 1) :
    substitute T s = s.map (fun ch =>
      match dictLookup ch.toNat T with
      | some v => v.headI
      | none => ch) := by
  induction s with
  | nil => rfl
  | cons c s ih =>
    unfold substitute at ih ⊢
    simp only [List.map_cons, List.flatten_cons, List.flatten]
    rcases hl : dictLookup c.toNat T with _ | v
    · simpa [hl] using ih
    · have hv := hT _ (dictLookup_mem hl)
      rcases List.length_eq_one.mp hv with ⟨a, ha⟩
      subst ha
      simpa [hl] using ih

theorem render_glyph_idx_zero {face : Face} {cc : Char ⊕ ℕ}
    (hidx : face.charIndex (ccToCode cc) = 0) : render_glyph face cc = none := by
  unfold render_glyph
  rw [if_pos hidx]

theorem render_glyph_load_error {face : Face} {cc : Char ⊕ ℕ} {e : String}
    (hidx : ¬face.charIndex (ccToCode cc) = 0)
    (hload : face.loadGlyph (face.charIndex (ccToCode cc)) = Except.error e) :
    render_glyph face cc = none := by
  unfold render_glyph
  rw [if_neg hidx, hload]

theorem render_glyph_load_ok {face : Face} {cc : Char ⊕ ℕ} {g : GlyphSlot}
    (hidx : ¬face.charIndex (ccToCode cc) = 0)
    (hload : face.loadGlyph (face.charIndex (ccToCode cc)) = Except.ok g) :
    render_glyph face cc =
      if g.rows = 0 ∨ g.width = 0 then none
      else if g.buffer.length ≠ g.rows * g.width then none
      else some ⟨g.rows, g.width, fun r c => g.buffer.getD (r * g.width + c) 0⟩ := by
  unfold render_glyph
  rw [if_neg hidx, hload]

theorem render_glyph_dims_pos {face : Face} {cc : Char ⊕ ℕ} {bmp : Bitmap}
    (h : render_glyph face cc = some bmp) : 0 < bmp.h ∧ 0 < bmp.w := by
  by_cases hidx : face.charIndex (ccToCode cc) = 0
  · rw [render_glyph_idx_zero hidx] at h
    exact Option.noConfusion h
  · cases hload : face.loadGlyph (face.charIndex (ccToCode cc)) with
    | error e =>
      rw [render_glyph_load_error hidx hload] at h
      exact Option.noConfusion h
    | ok g =>
      rw [render_glyph_load_ok hidx hload] at h
      by_cases hrw : g.rows = 0 ∨ g.width = 0
      · rw [if_pos hrw] at h
        exact Option.noConfusion h
      · rw [if_neg hrw] at h
        by_cases hbuf : g.buffer.length ≠ g.rows * g.width
        · rw [if_pos hbuf] at h
          exact Option.noConfusion h
        · rw [if_neg hbuf] at h
          have hb := Option.some.inj h
          push_neg at hrw
          rw [← hb]
          exact ⟨Nat.pos_of_ne_zero hrw.1, Nat.pos_of_ne_zero hrw.2⟩

theorem matchLoop_some_spec (t : Bitmap) :
    ∀ (l : List (Char × Bitmap)) (c : Char) (m : ℚ),
      (matchLoop t l c (some m) = (c, some m) ∧ ∀ p ∈ l, m ≤ mse t p.2) ∨
      (∃ i : Fin l.length,
        matchLoop t l c (some m) = ((l.get i).1, some (mse t (l.get i).2)) ∧
        mse t (l.get i).2 < m ∧
        (∀ j : Fin l.length, mse t (l.get i).2 ≤ mse t (l.get j).2) ∧
        (∀ j : Fin l.length, (j : ℕ) < (i : ℕ) → mse t (l.get i).2 < mse t (l.get j).2)) := by
  intro l
  induction l with
  | nil =>
    intro c m
    left
    exact ⟨rfl, by simp⟩
  | cons p rest ih =>
    intro c m
    by_cases hlt : mse t p.2 < m
    · have hunf : matchLoop t (p :: rest) c (some m) = matchLoop t rest p.1 (some (mse t p.2)) := by
        simp only [matchLoop]
        rw [if_pos hlt]
      rcases ih p.1 (mse t p.2) with ⟨heq, hall⟩ | ⟨i, heq, hlt', hall, hbef⟩
      · right
        refine ⟨⟨0, Nat.succ_pos _⟩, ?_, hlt, ?_, ?_⟩
        · rw [hunf, heq]
          rfl
        · intro j
          rcases j with ⟨j, hj⟩
          cases j with
          | zero => exact le_refl _
          | succ k =>
            have hk : k < rest.length := Nat.lt_of_succ_lt_succ hj
            exact hall _ (List.get_mem rest k hk)
        · intro j hj0
          exact absurd hj0 (Nat.not_lt_zero _)
      · right
        refine ⟨⟨i.1 + 1, Nat.succ_lt_succ i.2⟩, ?_, lt_trans hlt' hlt, ?_, ?_⟩
        · rw [hunf, heq]
          rfl
        · intro j
          rcases j with ⟨j, hj⟩
          cases j with
          | zero => exact le_of_lt hlt'
          | succ k =>
            have hk : k < rest.length := Nat.lt_of_succ_lt_succ hj
            exact hall ⟨k, hk⟩
        · intro j hj0
          rcases j with ⟨j, hj⟩
          cases j with
          | zero => exact hlt'
          | succ k =>
            have hk : k < rest.length := Nat.lt_of_succ_lt_succ hj
            exact hbef ⟨k, hk⟩ (Nat.lt_of_succ_lt_succ hj0)
    · have hunf : matchLoop t (p :: rest) c (some m) = matchLoop t rest c (some m) := by
        simp only [matchLoop]
        rw [if_neg hlt]
      rcases ih c m with ⟨heq, hall⟩ | ⟨i, heq, hlt', hall, hbef⟩
      · left
        refine ⟨by rw [hunf, heq], ?_⟩
        intro q hq
        rcases List.mem_cons.mp hq with heqq | hmem
        · rw [heqq]
          exact le_of_not_lt hlt
        · exact hall q hmem
      · right
        refine ⟨⟨i.1 + 1, Nat.succ_lt_succ i.2⟩, ?_, hlt', ?_, ?_⟩
        · rw [hunf, heq]
          rfl
        · intro j
          rcases j with ⟨j, hj⟩
          cases j with
          | zero => exact le_trans (le_of_lt hlt') (le_of_not_lt hlt)
          | succ k =>
            have hk : k < rest.length := Nat.lt_of_succ_lt_succ hj
            exact hall ⟨k, hk⟩
        · intro j hj0
          rcases j with ⟨j, hj⟩
          cases j with
          | zero => exact lt_of_lt_of_le hlt' (le_of_not_lt hlt)
          | succ k =>
            have hk : k < rest.length := Nat.lt_of_succ_lt_succ hj
            exact hbef ⟨k, hk⟩ (Nat.lt_of_succ_lt_succ hj0)

theorem dictLookup_buildRefCorpus (face : Face) (chars : List Char) (ch : Char) (b : Bitmap)
    (hb : render_glyph face (Sum.inl ch) = some b) (hmem : ch ∈ chars) :
    dictLookup ch (buildRefCorpus face chars) = some b := by
  have aux : ∀ (cs : List Char) (m : List (Char × Bitmap)),
      (ch ∈ cs ∨ dictLookup ch m = some b) →
      dictLookup ch (cs.foldl (fun m' c =>
        match render_glyph face (Sum.inl c) with
        | some bmp => dictInsert c bmp m'
        | none => m') m) = some b := by
    intro cs
    induction cs with
    | nil =>
      intro m hm
      rcases hm with h | h
      · simp at h
      · exact h
    | cons c rest ih =>
      intro m hm
      simp only [List.foldl_cons]
      by_cases hc : c = ch
      · subst hc
        apply ih
        right
        rw [hb]
        show dictLookup c (dictInsert c b m) = some b
        rw [dictLookup_dictInsert]
        simp
      · rcases hm with hmem' | hlook
        · rcases List.mem_cons.mp hmem' with heq | hmem''
          · exact absurd heq.symm hc
          · exact ih _ (Or.inl hmem'')
        · apply ih
          right
          rcases hr : render_glyph face (Sum.inl c) with _ | bmp
          · exact hlook
          · show dictLookup ch (dictInsert c bmp m) = some b
            rw [dictLookup_dictInsert, if_neg hc]
            exact hlook
  exact aux chars [] (Or.inl hmem)

theorem mem_COMMON_CHARS_zhong : '中' ∈ COMMON_CHARS := by
  unfold COMMON_CHARS
  apply List.mem_map.mpr
  refine ⟨0x4E2D, ?_, by decide⟩
  apply List.mem_range'_1.mpr
  constructor
  · norm_num
  · norm_num

theorem find?_append_first_pos {p : Face → Bool} (f : Face) (suf : List Face) :
    ∀ pre : List Face, (∀ g ∈ pre, p g = false) → p f = true →
      List.find? p (pre ++ f :: suf) = some f := by
  intro pre
  induction pre with
  | nil =>
    intro hpre hf
    simp only [List.nil_append]
    rw [List.find?_cons_of_pos _ hf]
  | cons gg rest ih =>
    intro hpre hf
    simp only [List.cons_append]
    rw [List.find?_cons_of_neg _ (by simp [hpre gg (List.mem_cons_self _ _)])]
    exact ih (fun g hg => hpre g (List.mem_cons_of_mem _ hg)) hf

theorem toHexDigit_lower {d : ℕ} (hd : d < 16) : isLowerHexDigit (toHexDigit d) = true := by
  interval_cases d <;> decide

theorem hexRepGo_all_lower :
    ∀ (fuel n : ℕ), n < fuel → ∀ c ∈ hexRepGo fuel n, isLowerHexDigit c = true := by
  intro fuel
  induction fuel with
  | zero =>
    intro n hn c hc
    exact absurd hn (Nat.not_lt_zero n)
  | succ fuel ih =>
    intro n hn c hc
    unfold hexRepGo at hc
    by_cases h16 : n < 16
    · rw [if_pos h16] at hc
      rw [List.mem_singleton.mp hc]
      exact toHexDigit_lower h16
    · rw [if_neg h16] at hc
      rcases List.mem_append.mp hc with h | h
      · have hdiv : n / 16 < fuel := by
          have := Nat.div_lt_self (show 0 < n by omega) (show (1 : ℕ) < 16 by omega)
          omega
        exact ih (n / 16) hdiv c h
      · rw [List.mem_singleton.mp h]
        exact toHexDigit_lower (Nat.mod_lt _ (by omega))

theorem hexRepGo_length_ge :
    ∀ (fuel n k : ℕ), n < fuel → 16 ^ k ≤ n → k + 1 ≤ (hexRepGo fuel n).length := by
  intro fuel
  induction fuel with
  | zero =>
    intro n k hn hk
    exact absurd hn (Nat.not_lt_zero n)
  | succ fuel ih =>
    intro n k hn hk
    by_cases h16 : n < 16
    · have hk0 : k = 0 := by
        by_contra hne
        have h1 : (16 : ℕ) = 16 ^ 1 := by norm_num
        have h2 : (16 : ℕ) ^ 1 ≤ 16 ^ k := Nat.pow_le_pow_right (by omega) (by omega)
        omega
      subst hk0
      simp [hexRepGo, if_pos h16]
    · have hlen : (hexRepGo (fuel + 1) n).length = (hexRepGo fuel (n / 16)).length + 1 := by
        simp [hexRepGo, if_neg h16]
      rw [hlen]
      cases k with
      | zero => omega
      | succ j =>
        have hdiv : n / 16 < fuel := by
          have := Nat.div_lt_self (show 0 < n by omega) (show (1 : ℕ) < 16 by omega)
          omega
        have hj : 16 ^ j ≤ n / 16 := by
          rw [Nat.le_div_iff_mul_le (show 0 < 16 by omega)]
          calc 16 ^ j * 16 = 16 ^ (j + 1) := by ring
          _ ≤ n := hk
        have := ih (n / 16) j hdiv hj
        omega

theorem takeWhile_append_all {α : Type} (p : α → Bool) :
    ∀ (l : List α) (a : α) (r : List α), (∀ c ∈ l, p c = true) → p a = false →
      (l ++ a :: r).takeWhile p = l ∧ (l ++ a :: r).dropWhile p = a :: r := by
  intro l
  induction l with
  | nil =>
    intro a r hl ha
    constructor
    · simp [List.takeWhile_cons, ha]
    · simp [List.dropWhile_cons, ha]
  | cons x xs ih =>
    intro a r hl ha
    have hx : p x = true := hl x (List.mem_cons_self _ _)
    have hrest := ih a r (fun c hc => hl c (List.mem_cons_of_mem _ hc)) ha
    constructor
    · simp [List.takeWhile_cons, hx, hrest.1]
    · simp [List.dropWhile_cons, hx, hrest.2]

/-! ### Claims -/

/-- C1: for every mapping table `T` (values single scalars, as the data
model prescribes) and every input text `s`, the substitution loop of
`decrypt_content` is a pure scalar-wise map: the output has as many
scalars as `s`, and at every position the output scalar is `T`'s value
at the input scalar's code when present and the input scalar itself
otherwise. -/
theorem substitution_is_scalarwise_map (T : List (ℕ × List Char)) (s : List Char)
    (hT : ∀ p ∈ T, p.2.length = 1) :
    (substitute T s).length = s.length ∧
    ∀ i : ℕ, (substitute T s)[i]? =
      (s[i]?).map (fun ch =>
        match dictLookup ch.toNat T with
        | some v => v.headI
        | none => ch) := by
  rw [substitute_eq_map T s hT]
  refine ⟨List.length_map _ _, fun i => ?_⟩
  rw [List.getElem?_map]

theorem substitution_is_scalarwise_map_witness :
    (∀ p ∈ [(0xE4C2, ['的']), (0xE3E8, ['一'])], p.2.length = 1) ∧
    (substitute [(0xE4C2, ['的']), (0xE3E8, ['一'])]
        [Char.ofNat 0xE4C2, Char.ofNat 0xE3E8, 'a', 'b', 'c']).length =
      [Char.ofNat 0xE4C2, Char.ofNat 0xE3E8, 'a', 'b', 'c'].length :=
  ⟨by decide,
    (substitution_is_scalarwise_map [(0xE4C2, ['的']), (0xE3E8, ['一'])]
      [Char.ofNat 0xE4C2, Char.ofNat 0xE3E8, 'a', 'b', 'c'] (by decide)).1⟩

/-- C4, counterexample: a mapping-file line whose character portion is
empty is not treated as "no mapping" — it is stored as a mapping to the
empty string, and substitution then deletes the codepoint instead of
leaving it unchanged. -/
theorem empty_entry_deletes_counterexample :
    parseMap [("0xe4c2:").data] = [(0xE4C2, [])] ∧
    substitute (parseMap [("0xe4c2:").data]) [Char.ofNat 0xE4C2] = [] ∧
    [Char.ofNat 0xE4C2] ≠ ([] : List Char) :=
  ⟨by decide, by decide, by decide⟩

/-- C4, amended: the reader skips lines without a colon and lines not
beginning (after stripping) with `0x`; an entry line whose character
portion is empty is stored as a mapping to the empty string, so
substitution deletes every occurrence of that codepoint. -/
theorem mapfile_reader_skips_and_empty_entry :
    (∀ l : List Char, l.contains ':' = false → parseMapLine l = none) ∧
    (∀ l : List Char, List.isPrefixOf ("0x".data) (pyStrip l) = false → parseMapLine l = none) ∧
    parseMap [("0xe4c2:").data] = [(0xE4C2, [])] ∧
    (∀ ch : Char, substitute [(ch.toNat, [])] [ch] = []) := by
  refine ⟨fun l h => ?_, fun l h => ?_, by decide, fun ch => ?_⟩
  · unfold parseMapLine
    split
    · rfl
    · rw [h]
      simp
  · unfold parseMapLine
    split
    · rfl
    · rw [h]
      simp
  · unfold substitute dictLookup
    simp [List.find?]

/-- C2, counterexample: the image distance of the code places both
bitmaps at the top-left of the common canvas, not centered — for a
1-by-1 inked bitmap against a 1-by-3 bitmap inked only in its first
column, the code's error is 0 while the centered placement of the spec
yields 43350. -/
theorem mse_centered_counterexample :
    mse ⟨1, 1, fun _ _ => 255⟩ ⟨1, 3, fun _ c => if c = 0 then 255 else 0⟩ = 0 ∧
    mseCenteredSpec ⟨1, 1, fun _ _ => 255⟩ ⟨1, 3, fun _ c => if c = 0 then 255 else 0⟩ = 43350 ∧
    (0 : ℚ) ≠ 43350 :=
  ⟨by decide, by decide, by decide⟩

/-- C2, amended: `mse` places both bitmaps into the common canvas of
maximal height and width at the top-left corner (offset zero in both
axes), zero-fills the rest, and divides the summed squared per-pixel
differences by the canvas area (not the smaller bitmap's area). -/
theorem mse_topleft_mean (A B : Bitmap) :
    mse A B =
      ((List.range (Nat.max A.h B.h)).map (fun r =>
        ((List.range (Nat.max A.w B.w)).map (fun c =>
          ((if r < A.h ∧ c < A.w then (A.px r c : ℚ) else 0) -
            (if r < B.h ∧ c < B.w then (B.px r c : ℚ) else 0)) *
          ((if r < A.h ∧ c < A.w then (A.px r c : ℚ) else 0) -
            (if r < B.h ∧ c < B.w then (B.px r c : ℚ) else 0)))).sum)).sum /
      ((Nat.max A.h B.h * Nat.max A.w B.w : ℕ) : ℚ) := by
  have hpx : ∀ (img : Bitmap) (r c : ℕ),
      ((padTL img r c : ℤ) : ℚ) = if r < img.h ∧ c < img.w then (img.px r c : ℚ) else 0 := by
    intro img r c
    unfold padTL
    split <;> simp
  unfold mse sqErrSum
  congr 1
  apply congrArg List.sum
  apply congrArg (fun f => List.map f (List.range (Nat.max A.h B.h)))
  funext r
  apply congrArg List.sum
  apply congrArg (fun f => List.map f (List.range (Nat.max A.w B.w)))
  funext c
  show ((padTL A r c - padTL B r c : ℤ) : ℚ) * ((padTL A r c - padTL B r c : ℤ) : ℚ) = _
  rw [Int.cast_sub, hpx, hpx]

/-- C3: an entry is recorded in the table only when its best-match error
is strictly below the acceptance cutoff; a codepoint whose best distance
is at or above the cutoff is omitted, so the finished table never holds
an entry whose match score reached the threshold. -/
theorem table_entries_below_cutoff (thr : ℚ) (render : ℕ → Option Bitmap)
    (corpus : List (Char × Bitmap)) (codes : List ℕ) (code : ℕ) (c : Char)
    (h : (code, c) ∈ solve thr render corpus codes) :
    ∃ t e, render code = some t ∧ bestMatch t corpus = (c, some e) ∧ e < thr := by
  have key : ∀ q ∈ solve thr render corpus codes,
      ∃ t e, render q.1 = some t ∧ bestMatch t corpus = (q.2, some e) ∧ e < thr := by
    unfold solve
    apply foldl_invariant
      (fun m : List (ℕ × Char) => ∀ q ∈ m,
        ∃ t e, render q.1 = some t ∧ bestMatch t corpus = (q.2, some e) ∧ e < thr)
    · intro q hq
      simp at hq
    · intro m a hm q hq
      rcases hr : render a with _ | t
      · rw [solveStep_render_none hr] at hq
        exact hm q hq
      · rcases hbm : (bestMatch t corpus).2 with _ | e
        · rw [solveStep_match_none hr hbm] at hq
          exact hm q hq
        · rw [solveStep_match_some hr hbm] at hq
          by_cases he : e < thr
          · rw [if_pos he] at hq
            rcases mem_dictInsert hq with heq | hold
            · subst heq
              refine ⟨t, e, hr, ?_, he⟩
              rw [← hbm]
            · exact hm q hold
          · rw [if_neg he] at hq
            exact hm q hq
  exact key (code, c) h

theorem table_entries_below_cutoff_witness :
    ((0xE000, '中') ∈ solve THRESHOLD (fun _ => some ⟨1, 1, fun _ _ => 255⟩)
      [('中', ⟨1, 1, fun _ _ => 255⟩)] [0xE000]) ∧
    (∃ t e, (fun _ : ℕ => some (Bitmap.mk 1 1 (fun _ _ => 255))) 0xE000 = some t ∧
      bestMatch t [('中', ⟨1, 1, fun _ _ => 255⟩)] = ('中', some e) ∧ e < THRESHOLD) :=
  ⟨by decide,
    table_entries_below_cutoff THRESHOLD (fun _ => some ⟨1, 1, fun _ _ => 255⟩)
      [('中', ⟨1, 1, fun _ _ => 255⟩)] [0xE000] 0xE000 '中' (by decide)⟩

/-- C5: a candidate codepoint whose target bitmap is absent is
unconditionally excluded from the table, and with an empty reference
corpus the table stays empty. -/
theorem absent_target_excluded (thr : ℚ) (render : ℕ → Option Bitmap) (codes : List ℕ) :
    (∀ (corpus : List (Char × Bitmap)) (code : ℕ) (c : Char),
      render code = none → (code, c) ∉ solve thr render corpus codes) ∧
    solve thr render [] codes = [] := by
  constructor
  · intro corpus code c hnone
    unfold solve
    apply foldl_invariant (fun m : List (ℕ × Char) => (code, c) ∉ m)
    · simp
    · intro m a hm hmem
      rcases hr : render a with _ | t
      · rw [solveStep_render_none hr] at hmem
        exact hm hmem
      · rcases hbm : (bestMatch t corpus).2 with _ | e
        · rw [solveStep_match_none hr hbm] at hmem
          exact hm hmem
        · rw [solveStep_match_some hr hbm] at hmem
          by_cases he : e < thr
          · rw [if_pos he] at hmem
            rcases mem_dictInsert hmem with heq | hold
            · have hac : code = a := (Prod.mk.injEq _ _ _ _ |>.mp heq).1
              rw [← hac] at hr
              rw [hr] at hnone
              exact Option.noConfusion hnone
            · exact hm hold
          · rw [if_neg he] at hmem
            exact hm hmem
  · unfold solve
    apply foldl_invariant (fun m : List (ℕ × Char) => m = [])
    · rfl
    · intro m a hm
      subst hm
      rcases hr : render a with _ | t <;>
        simp [solveStep, hr, bestMatch, matchLoop]

theorem absent_target_excluded_witness :
    ((fun _ : ℕ => (none : Option Bitmap)) 0xE000 = none) ∧
    ((0xE000, '中') ∉ solve THRESHOLD (fun _ => (none : Option Bitmap))
      [('中', ⟨1, 1, fun _ _ => 255⟩)] [0xE000]) ∧
    solve THRESHOLD (fun _ => (none : Option Bitmap)) [] [0xE000, 0xE001] = [] :=
  ⟨rfl,
    (absent_target_excluded THRESHOLD (fun _ => none) [0xE000]).1
      [('中', ⟨1, 1, fun _ _ => 255⟩)] 0xE000 '中' rfl,
    (absent_target_excluded THRESHOLD (fun _ => none) [0xE000, 0xE001]).2⟩

/-- C6: the rasterizer is a total function that returns the reshaped
coverage bitmap, and returns the absent value exactly when the font
reports glyph index zero, the font driver errors during loading, the
raster has zero width or zero height, or the buffer does not fill the
raster (the reshape failure the `except` absorbs); no exception
propagates since the embedding is total. -/
theorem render_glyph_absent_or_bitmap (face : Face) (cc : Char ⊕ ℕ) :
    (render_glyph face cc = none ↔
      face.charIndex (ccToCode cc) = 0 ∨
      (∃ msg, face.loadGlyph (face.charIndex (ccToCode cc)) = Except.error msg) ∨
      (∃ g, face.loadGlyph (face.charIndex (ccToCode cc)) = Except.ok g ∧
        (g.rows = 0 ∨ g.width = 0 ∨ g.buffer.length ≠ g.rows * g.width))) ∧
    (∀ g : GlyphSlot, face.charIndex (ccToCode cc) ≠ 0 →
      face.loadGlyph (face.charIndex (ccToCode cc)) = Except.ok g →
      g.rows ≠ 0 → g.width ≠ 0 → g.buffer.length = g.rows * g.width →
      render_glyph face cc =
        some ⟨g.rows, g.width, fun r c => g.buffer.getD (r * g.width + c) 0⟩) := by
  by_cases hidx : face.charIndex (ccToCode cc) = 0
  · refine ⟨?_, ?_⟩
    · rw [render_glyph_idx_zero hidx]
      simp [hidx]
    · intro g hne
      exact absurd hidx hne
  · cases hload : face.loadGlyph (face.charIndex (ccToCode cc)) with
    | error e =>
      refine ⟨?_, ?_⟩
      · rw [render_glyph_load_error hidx hload]
        simp only [true_iff]
        exact Or.inr (Or.inl ⟨e, rfl⟩)
      · intro g hne hok
        exact Except.noConfusion hok
    | ok g =>
      have hgeq : ∀ g' : GlyphSlot,
          (Except.ok g : Except String GlyphSlot) = Except.ok g' → g' = g := by
        intro g' hok
        exact (Except.ok.inj hok).symm
      by_cases hrw : g.rows = 0 ∨ g.width = 0
      · refine ⟨?_, ?_⟩
        · rw [render_glyph_load_ok hidx hload, if_pos hrw]
          simp only [true_iff]
          refine Or.inr (Or.inr ⟨g, rfl, ?_⟩)
          rcases hrw with h0 | h0
          · exact Or.inl h0
          · exact Or.inr (Or.inl h0)
        · intro g' hne hok hr hw hb
          rw [hgeq g' hok] at hr hw
          rcases hrw with h0 | h0
          · exact absurd h0 hr
          · exact absurd h0 hw
      · by_cases hbuf : g.buffer.length ≠ g.rows * g.width
        · refine ⟨?_, ?_⟩
          · rw [render_glyph_load_ok hidx hload, if_neg hrw, if_pos hbuf]
            simp only [true_iff]
            exact Or.inr (Or.inr ⟨g, rfl, Or.inr (Or.inr hbuf)⟩)
          · intro g' hne hok hr hw hb
            rw [hgeq g' hok] at hb
            exact absurd hb hbuf
        · refine ⟨?_, ?_⟩
          · rw [render_glyph_load_ok hidx hload, if_neg hrw, if_neg hbuf]
            push_neg at hrw
            constructor
            · intro hcon
              exact Option.noConfusion hcon
            · intro hcon
              rcases hcon with h0 | ⟨msg, hmsg⟩ | ⟨g', hok, hbad⟩
              · exact absurd h0 hidx
              · exact Except.noConfusion hmsg
              · rw [hgeq g' hok] at hbad
                rcases hbad with h0 | h0 | h0
                · exact absurd h0 hrw.1
                · exact absurd h0 hrw.2
                · exact absurd (not_not.mp hbuf) h0
          · intro g' hne hok hr hw hb
            rw [render_glyph_load_ok hidx hload, if_neg hrw, if_neg hbuf]
            rw [hgeq g' hok]

theorem render_glyph_absent_or_bitmap_witness :
    render_glyph ⟨fun _ => 1, fun _ => Except.ok ⟨1, 1, [5]⟩⟩ (Sum.inr 0xE000) =
      some ⟨1, 1, fun r c => [5].getD (r * 1 + c) 0⟩ :=
  (render_glyph_absent_or_bitmap ⟨fun _ => 1, fun _ => Except.ok ⟨1, 1, [5]⟩⟩
    (Sum.inr 0xE000)).2 ⟨1, 1, [5]⟩ (by decide) rfl (by decide) (by decide) (by decide)

/-- C10: any two bitmaps returned by `render_glyph` have positive height
and width, so the canvas area `mse` divides by is strictly positive and
the computed error is a well-defined non-negative rational. -/
theorem mse_division_welldefined (f₁ f₂ : Face) (cc₁ cc₂ : Char ⊕ ℕ) (A B : Bitmap)
    (h₁ : render_glyph f₁ cc₁ = some A) (h₂ : render_glyph f₂ cc₂ = some B) :
    0 < Nat.max A.h B.h * Nat.max A.w B.w ∧ 0 ≤ mse A B := by
  have pA := render_glyph_dims_pos h₁
  have pB := render_glyph_dims_pos h₂
  constructor
  · exact Nat.mul_pos (lt_of_lt_of_le pA.1 (Nat.le_max_left _ _))
      (lt_of_lt_of_le pA.2 (Nat.le_max_left _ _))
  · unfold mse
    apply div_nonneg
    · apply List.sum_nonneg
      intro x hx
      rcases List.mem_map.mp hx with ⟨r, _, hr⟩
      rw [← hr]
      apply List.sum_nonneg
      intro y hy
      rcases List.mem_map.mp hy with ⟨c, _, hc⟩
      rw [← hc]
      exact mul_self_nonneg _
    · exact Nat.cast_nonneg _

theorem mse_division_welldefined_witness :
    render_glyph ⟨fun _ => 1, fun _ => Except.ok ⟨1, 1, [5]⟩⟩ (Sum.inr 0xE000) =
      some ⟨1, 1, fun r c => [5].getD (r * 1 + c) 0⟩ ∧
    (0 < Nat.max (Bitmap.mk 1 1 (fun r c => [5].getD (r * 1 + c) 0)).h
        (Bitmap.mk 1 1 (fun r c => [5].getD (r * 1 + c) 0)).h *
        Nat.max (Bitmap.mk 1 1 (fun r c => [5].getD (r * 1 + c) 0)).w
        (Bitmap.mk 1 1 (fun r c => [5].getD (r * 1 + c) 0)).w ∧
      0 ≤ mse ⟨1, 1, fun r c => [5].getD (r * 1 + c) 0⟩
        ⟨1, 1, fun r c => [5].getD (r * 1 + c) 0⟩) :=
  ⟨rfl,
    mse_division_welldefined ⟨fun _ => 1, fun _ => Except.ok ⟨1, 1, [5]⟩⟩
      ⟨fun _ => 1, fun _ => Except.ok ⟨1, 1, [5]⟩⟩ (Sum.inr 0xE000) (Sum.inr 0xE000)
      ⟨1, 1, fun r c => [5].getD (r * 1 + c) 0⟩
      ⟨1, 1, fun r c => [5].getD (r * 1 + c) 0⟩ rfl rfl⟩

/-- C7: the mapping build is deterministic — equal render functions,
corpora and candidate lists give equal tables — and the best-match scan
returns the first-encountered candidate with the strictly lowest error:
its error is a minimum over the corpus, and every earlier candidate has
a strictly larger error. -/
theorem builder_deterministic_first_min :
    (∀ (thr : ℚ) (r₁ r₂ : ℕ → Option Bitmap) (co₁ co₂ : List (Char × Bitmap))
        (cs₁ cs₂ : List ℕ), r₁ = r₂ → co₁ = co₂ → cs₁ = cs₂ →
      solve thr r₁ co₁ cs₁ = solve thr r₂ co₂ cs₂) ∧
    (∀ (t : Bitmap) (corpus : List (Char × Bitmap)) (c : Char) (e : ℚ),
      bestMatch t corpus = (c, some e) →
      ∃ i : Fin corpus.length,
        (corpus.get i).1 = c ∧ mse t (corpus.get i).2 = e ∧
        (∀ j : Fin corpus.length, e ≤ mse t (corpus.get j).2) ∧
        (∀ j : Fin corpus.length, (j : ℕ) < (i : ℕ) → e < mse t (corpus.get j).2)) := by
  constructor
  · intro thr r₁ r₂ co₁ co₂ cs₁ cs₂ hr hco hcs
    rw [hr, hco, hcs]
  · intro t corpus c e hbm
    cases corpus with
    | nil => simp [bestMatch, matchLoop] at hbm
    | cons p rest =>
      have hunf : bestMatch t (p :: rest) = matchLoop t rest p.1 (some (mse t p.2)) := by
        simp only [bestMatch, matchLoop]
      rw [hunf] at hbm
      rcases matchLoop_some_spec t rest p.1 (mse t p.2) with ⟨heq, hall⟩ | ⟨i, heq, hlt', hall, hbef⟩
      · rw [heq] at hbm
        injection hbm with hc he
        have he' : mse t p.2 = e := Option.some.inj he
        subst he'
        refine ⟨⟨0, Nat.succ_pos _⟩, hc, rfl, ?_, ?_⟩
        · intro j
          rcases j with ⟨j, hj⟩
          cases j with
          | zero => exact le_refl _
          | succ k =>
            have hk : k < rest.length := Nat.lt_of_succ_lt_succ hj
            exact hall _ (List.get_mem rest k hk)
        · intro j hj0
          exact absurd hj0 (Nat.not_lt_zero _)
      · rw [heq] at hbm
        injection hbm with hc he
        have he' : mse t (rest.get i).2 = e := Option.some.inj he
        subst he'
        refine ⟨⟨i.1 + 1, Nat.succ_lt_succ i.2⟩, hc, rfl, ?_, ?_⟩
        · intro j
          rcases j with ⟨j, hj⟩
          cases j with
          | zero => exact le_of_lt hlt'
          | succ k =>
            have hk : k < rest.length := Nat.lt_of_succ_lt_succ hj
            exact hall ⟨k, hk⟩
        · intro j hj0
          rcases j with ⟨j, hj⟩
          cases j with
          | zero => exact hlt'
          | succ k =>
            have hk : k < rest.length := Nat.lt_of_succ_lt_succ hj
            exact hbef ⟨k, hk⟩ (Nat.lt_of_succ_lt_succ hj0)

/-- Concrete fixture: a fully inked 1-by-1 coverage bitmap. -/
def bmpA : Bitmap := ⟨1, 1, fun _ _ => 255⟩

/-- Concrete fixture: a blank 1-by-1 coverage bitmap. -/
def bmpB : Bitmap := ⟨1, 1, fun _ _ => 0⟩

/-- Concrete fixture: a two-character reference corpus. -/
def corpusAB : List (Char × Bitmap) := [('中', bmpA), ('国', bmpB)]

theorem builder_deterministic_first_min_witness :
    (solve THRESHOLD (fun _ => some bmpA) corpusAB [0xE000] =
      solve THRESHOLD (fun _ => some bmpA) corpusAB [0xE000]) ∧
    (∃ i : Fin corpusAB.length,
      (corpusAB.get i).1 = '中' ∧ mse bmpA (corpusAB.get i).2 = 0 ∧
      (∀ j : Fin corpusAB.length, 0 ≤ mse bmpA (corpusAB.get j).2) ∧
      (∀ j : Fin corpusAB.length, (j : ℕ) < (i : ℕ) → 0 < mse bmpA (corpusAB.get j).2)) :=
  ⟨builder_deterministic_first_min.1 THRESHOLD _ _ _ _ _ _ rfl rfl rfl,
    builder_deterministic_first_min.2 bmpA corpusAB '中' 0 (by decide)⟩

theorem mapfile_reader_skips_and_empty_entry_witness :
    (("no colon here").data.contains ':' = false ∧
      parseMapLine (("no colon here").data) = none) ∧
    (List.isPrefixOf ("0x".data) (pyStrip (("E4C2:好").data)) = false ∧
      parseMapLine (("E4C2:好").data) = none) ∧
    substitute [(('中').toNat, [])] ['中'] = [] :=
  ⟨⟨by decide, mapfile_reader_skips_and_empty_entry.1 _ (by decide)⟩,
    ⟨by decide, mapfile_reader_skips_and_empty_entry.2.1 _ (by decide)⟩,
    mapfile_reader_skips_and_empty_entry.2.2.2 '中'⟩

/-- Concrete fixture: an obfuscated-font model with a glyph for every
codepoint, all rendering to the coverage value 7. -/
def obsFace : Face := ⟨fun _ => 1, fun _ => Except.ok ⟨1, 1, [7]⟩⟩

/-- Concrete fixture: a reference-font face with a glyph for every
codepoint, all rendering to the coverage value 9. -/
def refFace : Face := ⟨fun _ => 1, fun _ => Except.ok ⟨1, 1, [9]⟩⟩

/-- C8, counterexample: even when the obfuscated font's own discoverable
CJK glyph count is at least the PUA candidate count (here the candidate
list is empty, so any count qualifies), `main` still builds the
reference corpus from the external reference face — the corpus entry
for `中` is the external face's bitmap, not the obfuscated font's. -/
theorem reference_selection_counterexample :
    (parsePuaCodes []).length ≤ cjkGlyphCount obsFace ∧
    dictLookup '中' (mainRefCorpus [refFace]) ≠
      dictLookup '中' (buildRefCorpus obsFace COMMON_CHARS) := by
  constructor
  · exact Nat.zero_le _
  · have hsel : selectRefFace [refFace] = some refFace := rfl
    have h9 : dictLookup '中' (mainRefCorpus [refFace]) =
        some ⟨1, 1, fun r c => [9].getD (r * 1 + c) 0⟩ := by
      unfold mainRefCorpus
      rw [hsel]
      exact dictLookup_buildRefCorpus refFace COMMON_CHARS '中' _ rfl mem_COMMON_CHARS_zhong
    have h7 : dictLookup '中' (buildRefCorpus obsFace COMMON_CHARS) =
        some ⟨1, 1, fun r c => [7].getD (r * 1 + c) 0⟩ :=
      dictLookup_buildRefCorpus obsFace COMMON_CHARS '中' _ rfl mem_COMMON_CHARS_zhong
    rw [h9, h7]
    intro hcon
    have hbm := Option.some.inj hcon
    have hpx := congrArg (fun bm : Bitmap => bm.px 0 0) hbm
    simp at hpx

/-- C8, amended: the builder always takes the reference corpus from the
external reference typeface — the first face in it whose charmap has a
glyph for `中` (U+4E2D) — regardless of the obfuscated font and of any
glyph counts; no self-referential selection is implemented. -/
theorem reference_always_external (obs : Face) (refFaces : List Face) (pua : List ℕ)
    (pre : List Face) (f : Face) (suf : List Face)
    (hsplit : refFaces = pre ++ f :: suf)
    (hpre : ∀ g ∈ pre, g.charIndex 0x4E2D = 0)
    (hf : f.charIndex 0x4E2D ≠ 0) :
    mainRefCorpus refFaces = buildRefCorpus f COMMON_CHARS ∧
    mainSolve obs refFaces pua =
      solve THRESHOLD (fun code => render_glyph obs (Sum.inr code))
        (buildRefCorpus f COMMON_CHARS) pua := by
  have hsel : selectRefFace refFaces = some f := by
    unfold selectRefFace
    rw [hsplit, find?_append_first_pos f suf pre
      (fun g hg => by simp [hpre g hg]) (by simpa using hf)]
  constructor
  · unfold mainRefCorpus
    rw [hsel]
  · unfold mainSolve mainRefCorpus
    rw [hsel]

theorem reference_always_external_witness :
    mainRefCorpus [refFace] = buildRefCorpus refFace COMMON_CHARS ∧
    mainSolve obsFace [refFace] [] =
      solve THRESHOLD (fun code => render_glyph obsFace (Sum.inr code))
        (buildRefCorpus refFace COMMON_CHARS) [] :=
  reference_always_external obsFace [refFace] [] [] refFace [] rfl
    (by simp) (by decide)

/-- C9, counterexample: the builder applies Python `hex`, which does not
zero-pad — a run whose `font_map.txt` offers the code 0x4e emits the
line `0x4e:中`, whose hex portion has only two digits and so does not
match the claimed `0x` + at-least-4-digit form. -/
theorem serialized_entry_unpadded_counterexample :
    serializeMapping (solve THRESHOLD (fun _ => some bmpA) [('中', bmpA)]
      (parsePuaCodes [("Code: 0x4e, Name: g1").data])) = [("0x4e:中").data] ∧
    specEntryShape (("0x4e:中").data) = false :=
  ⟨by decide, by decide⟩

/-- C9, amended: every emitted entry line is `0x` + lowercase hex digits
(as produced by `hex`, without zero-padding) + `:` + exactly one
recovered character and nothing after it; for every codepoint at least
0x1000 — in particular every PUA codepoint — the hex portion has at
least 4 digits, so such entries match the spec's shape. -/
theorem serialized_entry_shape (code : ℕ) (c : Char) (hcode : 0x1000 ≤ code) :
    specEntryShape (serializeEntry code c) = true := by
  have hlow : ∀ d ∈ hexRep code, isLowerHexDigit d = true :=
    hexRepGo_all_lower (code + 1) code (Nat.lt_succ_self _)
  have hlen : 4 ≤ (hexRep code).length := by
    have h163 : (16 : ℕ) ^ 3 ≤ code := by
      calc (16 : ℕ) ^ 3 = 4096 := by norm_num
      _ ≤ code := hcode
    exact hexRepGo_length_ge (code + 1) code 3 (Nat.lt_succ_self _) h163
  have hform : serializeEntry code c = '0' :: 'x' :: (hexRep code ++ ':' :: [c]) := by
    unfold serializeEntry pyHex
    simp
  rw [hform]
  show (decide (4 ≤ ((hexRep code ++ ':' :: [c]).takeWhile isLowerHexDigit).length) &&
    (match (hexRep code ++ ':' :: [c]).dropWhile isLowerHexDigit with
     | [':', _] => true
     | _ => false)) = true
  have htw := takeWhile_append_all isLowerHexDigit (hexRep code) ':' [c] hlow (by decide)
  rw [htw.1, htw.2]
  simp [hlen]

theorem serialized_entry_shape_witness :
    0x1000 ≤ 0xE4C2 ∧ specEntryShape (serializeEntry 0xE4C2 '的') = true :=
  ⟨by decide, serialized_entry_shape 0xE4C2 '的' (by decide)⟩

end Xupu
